import Mathlib

/-!
Verification of the PPO training core in `src/agents.py` (class `PPOAgent`).

Tensors of shape `[num_workers, horizon]` are embedded as `List (List ℚ)`
(one inner list per worker row); all TensorFlow operations used by the code
(`+`, `*`, slicing, `tf.stack`, `tf.gather`) act elementwise or rowwise, so
each method is embedded rowwise and lifted to the worker dimension where the
property quantifies over a worker index.  Real-valued losses that involve
`tf.exp` are embedded over `ℝ` with `Real.exp`.
-/

namespace PPO

/-- Mask `non_terminal = 1.0 - dones` (src/agents.py line 51), one worker row. -/
def nonTerminalRow (dones : List ℚ) : List ℚ :=
  dones.map (fun d => 1 - d)

/-- TD residuals (src/agents.py line 52), one worker row:
`deltas = rewards + discount*non_terminal*values[:, 1:] - values[:, :-1]`.
`values.zip values.tail` pairs `V[t]` with `V[t+1]`; the elementwise tensor
arithmetic becomes a `zipWith`. -/
def deltasRow (discount : ℚ) (rewards values dones : List ℚ) : List ℚ :=
  List.zipWith (fun rn vv => rn.1 + discount * rn.2 * vv.2 - vv.1)
    (rewards.zip (nonTerminalRow dones)) (values.zip values.tail)

/-- The backward loop of `compute_advantages` (src/agents.py lines 54-57):
`advantages = [deltas[:, -1]]`, then for `i` from `H-2` down to `0` the code
appends `deltas[:, i] + discount*gae_parameter*non_terminal[:, i]*advantages[-1]`,
and finally reverses the list (`advantages[::-1]`).  Appending under a final
reversal is rendered as a right fold over `range (H-1)` that conses each new
element onto the already-built suffix; the suffix head is exactly the element
the Python loop reads as `advantages[-1]`.  `deltas[:, -1]` is the last column,
`deltas.getD (deltas.length - 1) 0`. -/
def gaeLoop (c : ℚ) (deltas nonTerminal : List ℚ) : List ℚ :=
  (List.range (deltas.length - 1)).foldr
    (fun i advs => (deltas.getD i 0 + c * nonTerminal.getD i 0 * advs.headD 0) :: advs)
    [deltas.getD (deltas.length - 1) 0]

/-- `compute_advantages` (src/agents.py lines 34-58) on a single worker row. -/
def computeAdvantagesRow (discount gae_parameter : ℚ) (rewards values dones : List ℚ) :
    List ℚ :=
  gaeLoop (discount * gae_parameter) (deltasRow discount rewards values dones)
    (nonTerminalRow dones)

/-- `compute_advantages` (src/agents.py lines 34-58) on `[workers, horizon]`
tensors: every tensor operation in the method acts columnwise/elementwise, so
the tensor result is the rowwise computation applied to each worker row. -/
def compute_advantages (discount gae_parameter : ℚ)
    (rewards values dones : List (List ℚ)) : List (List ℚ) :=
  List.zipWith (fun rw vd => computeAdvantagesRow discount gae_parameter rw vd.1 vd.2)
    rewards (values.zip dones)

theorem headD_eq_getD (l : List ℚ) : l.headD 0 = l.getD 0 0 := by
  cases l <;> rfl

theorem gae_foldr_length (c : ℚ) (D N : ℕ → ℚ) :
    ∀ (k m : ℕ) (init : List ℚ),
      ((List.range' m k).foldr
          (fun i advs => (D i + c * N i * advs.headD 0) :: advs) init).length
        = k + init.length := by
  intro k
  induction k with
  | zero => intro m init; simp
  | succ k ih =>
    intro m init
    rw [List.range'_succ m k 1]
    simp only [List.foldr_cons, List.length_cons, ih (m + 1) init]
    omega

theorem gae_foldr_drop (c : ℚ) (D N : ℕ → ℚ) :
    ∀ (k m : ℕ) (init : List ℚ),
      ((List.range' m k).foldr
          (fun i advs => (D i + c * N i * advs.headD 0) :: advs) init).drop k
        = init := by
  intro k
  induction k with
  | zero => intro m init; rfl
  | succ k ih =>
    intro m init
    rw [List.range'_succ m k 1]
    simpa using ih (m + 1) init

theorem gae_foldr_getD (c : ℚ) (D N : ℕ → ℚ) :
    ∀ (k m : ℕ) (init : List ℚ) (i : ℕ), i < k →
      ((List.range' m k).foldr
          (fun i advs => (D i + c * N i * advs.headD 0) :: advs) init).getD i 0
        = D (m + i) + c * N (m + i) *
            ((List.range' m k).foldr
              (fun i advs => (D i + c * N i * advs.headD 0) :: advs) init).getD (i + 1) 0 := by
  intro k
  induction k with
  | zero => intro m init i hi; omega
  | succ k ih =>
    intro m init i hi
    rw [List.range'_succ m k 1]
    simp only [List.foldr_cons]
    cases i with
    | zero =>
      simp only [List.getD_cons_zero, List.getD_cons_succ, Nat.add_zero]
      rw [headD_eq_getD]
    | succ i =>
      simp only [List.getD_cons_succ]
      rw [ih (m + 1) init i (by omega), show m + 1 + i = m + (i + 1) from by omega]

theorem getD_drop (l : List ℚ) : ∀ (m i : ℕ), (l.drop m).getD i 0 = l.getD (m + i) 0 := by
  induction l with
  | nil => intro m i; simp
  | cons a t ih =>
    intro m i
    cases m with
    | zero => simp
    | succ m => simp [Nat.succ_add, ih m i]

/-- TD residual formula as the specification states it:
`δ[w,t] = R[w,t] + γ·(1-D[w,t])·V[w,t+1] − V[w,t]`, on one worker row. -/
def deltaSpec (discount : ℚ) (rewards values dones : List ℚ) (t : ℕ) : ℚ :=
  rewards.getD t 0 + discount * (1 - dones.getD t 0) * values.getD (t + 1) 0
    - values.getD t 0

theorem deltasRow_length (discount : ℚ) (rewards values dones : List ℚ) (H : ℕ)
    (hr : rewards.length = H) (hv : values.length = H + 1) (hd : dones.length = H) :
    (deltasRow discount rewards values dones).length = H := by
  simp [deltasRow, nonTerminalRow, hr, hv, hd]

theorem nonTerminalRow_getD (dones : List ℚ) (t : ℕ) (ht : t < dones.length) :
    (nonTerminalRow dones).getD t 0 = 1 - dones.getD t 0 := by
  rw [List.getD_eq_getElem _ _ (by simp [nonTerminalRow]; omega),
    List.getD_eq_getElem _ _ ht]
  simp [nonTerminalRow]

theorem deltasRow_getD (discount : ℚ) (rewards values dones : List ℚ) (H t : ℕ)
    (hr : rewards.length = H) (hv : values.length = H + 1) (hd : dones.length = H)
    (ht : t < H) :
    (deltasRow discount rewards values dones).getD t 0 =
      deltaSpec discount rewards values dones t := by
  have hlen := deltasRow_length discount rewards values dones H hr hv hd
  rw [deltaSpec, List.getD_eq_getElem _ _ (by omega),
    List.getD_eq_getElem _ _ (by omega), List.getD_eq_getElem _ _ (by omega),
    List.getD_eq_getElem _ _ (by omega), List.getD_eq_getElem _ _ (by omega)]
  simp [deltasRow, nonTerminalRow, List.getElem_zipWith, List.getElem_zip,
    List.getElem_tail]

theorem computeAdvantagesRow_spec (discount gae_parameter : ℚ)
    (rewards values dones : List ℚ) (H : ℕ)
    (hr : rewards.length = H) (hv : values.length = H + 1) (hd : dones.length = H)
    (hH : 1 ≤ H) :
    (computeAdvantagesRow discount gae_parameter rewards values dones).length = H ∧
    (computeAdvantagesRow discount gae_parameter rewards values dones).getD (H - 1) 0
      = deltaSpec discount rewards values dones (H - 1) ∧
    ∀ t, t + 1 < H →
      (computeAdvantagesRow discount gae_parameter rewards values dones).getD t 0
        = deltaSpec discount rewards values dones t
          + discount * gae_parameter * (1 - dones.getD t 0)
            * (computeAdvantagesRow discount gae_parameter rewards values dones).getD (t + 1) 0 := by
  have hDlen := deltasRow_length discount rewards values dones H hr hv hd
  have hA : computeAdvantagesRow discount gae_parameter rewards values dones
      = (List.range' 0 (H - 1)).foldr
          (fun i advs =>
            ((deltasRow discount rewards values dones).getD i 0
              + discount * gae_parameter * (nonTerminalRow dones).getD i 0 * advs.headD 0) :: advs)
          [(deltasRow discount rewards values dones).getD (H - 1) 0] := by
    simp [computeAdvantagesRow, gaeLoop, hDlen, List.range_eq_range']
  have hlen : (computeAdvantagesRow discount gae_parameter rewards values dones).length = H := by
    rw [hA]
    have := gae_foldr_length (discount * gae_parameter)
      (fun i => (deltasRow discount rewards values dones).getD i 0)
      (fun i => (nonTerminalRow dones).getD i 0) (H - 1) 0
      [(deltasRow discount rewards values dones).getD (H - 1) 0]
    simp only [List.length_cons, List.length_nil] at this
    omega
  refine ⟨hlen, ?_, ?_⟩
  · have hdrop := gae_foldr_drop (discount * gae_parameter)
      (fun i => (deltasRow discount rewards values dones).getD i 0)
      (fun i => (nonTerminalRow dones).getD i 0) (H - 1) 0
      [(deltasRow discount rewards values dones).getD (H - 1) 0]
    have hbase := getD_drop (computeAdvantagesRow discount gae_parameter rewards values dones) (H - 1) 0
    rw [hA] at hbase
    rw [hdrop] at hbase
    simp only [List.getD_cons_zero, Nat.add_zero] at hbase
    rw [hA, ← hbase, deltasRow_getD discount rewards values dones H (H - 1) hr hv hd (by omega)]
  · intro t ht
    have hrec := gae_foldr_getD (discount * gae_parameter)
      (fun i => (deltasRow discount rewards values dones).getD i 0)
      (fun i => (nonTerminalRow dones).getD i 0) (H - 1) 0
      [(deltasRow discount rewards values dones).getD (H - 1) 0] t (by omega)
    simp only [Nat.zero_add] at hrec
    rw [hA, hrec, deltasRow_getD discount rewards values dones H t hr hv hd (by omega),
      nonTerminalRow_getD dones t (by omega)]

theorem compute_advantages_getD_row (discount gae_parameter : ℚ)
    (rewards values dones : List (List ℚ)) (w : ℕ)
    (hw : w < rewards.length) (h1 : values.length = rewards.length)
    (h2 : dones.length = rewards.length) :
    (compute_advantages discount gae_parameter rewards values dones).getD w []
      = computeAdvantagesRow discount gae_parameter
          (rewards.getD w []) (values.getD w []) (dones.getD w []) := by
  rw [List.getD_eq_getElem _ _
      (by simp [compute_advantages, h1, h2]; omega),
    List.getD_eq_getElem _ _ hw, List.getD_eq_getElem _ _ (by omega),
    List.getD_eq_getElem _ _ (by omega)]
  simp [compute_advantages, List.getElem_zipWith, List.getElem_zip]

/-- C1: `compute_advantages` satisfies the truncated-GAE recursion: for every
worker row `w`, the result has one advantage per timestep,
`A[w,H-1] = δ[w,H-1]`, and for every `t` with `t+1 < H`,
`A[w,t] = δ[w,t] + γ·λ·(1-D[w,t])·A[w,t+1]`, where
`δ[w,t] = R[w,t] + γ·(1-D[w,t])·V[w,t+1] − V[w,t]`; in particular with
`H = 1` the single advantage equals `δ[w,0]` exactly. -/
theorem compute_advantages_gae_recursion (discount gae_parameter : ℚ)
    (rewards values dones : List (List ℚ)) (W H w : ℕ)
    (hWr : rewards.length = W) (hWv : values.length = W) (hWd : dones.length = W)
    (hw : w < W)
    (hr : (rewards.getD w []).length = H)
    (hv : (values.getD w []).length = H + 1)
    (hd : (dones.getD w []).length = H)
    (hH : 1 ≤ H) :
    ((compute_advantages discount gae_parameter rewards values dones).getD w []).length = H ∧
    ((compute_advantages discount gae_parameter rewards values dones).getD w []).getD (H - 1) 0
      = deltaSpec discount (rewards.getD w []) (values.getD w []) (dones.getD w []) (H - 1) ∧
    (∀ t, t + 1 < H →
      ((compute_advantages discount gae_parameter rewards values dones).getD w []).getD t 0
        = deltaSpec discount (rewards.getD w []) (values.getD w []) (dones.getD w []) t
          + discount * gae_parameter * (1 - (dones.getD w []).getD t 0)
            * ((compute_advantages discount gae_parameter rewards values dones).getD w []).getD (t + 1) 0) ∧
    (H = 1 →
      ((compute_advantages discount gae_parameter rewards values dones).getD w []).getD 0 0
        = deltaSpec discount (rewards.getD w []) (values.getD w []) (dones.getD w []) 0) := by
  rw [compute_advantages_getD_row discount gae_parameter rewards values dones w
    (by omega) (by omega) (by omega)]
  obtain ⟨hl, hb, hrec⟩ := computeAdvantagesRow_spec discount gae_parameter
    (rewards.getD w []) (values.getD w []) (dones.getD w []) H hr hv hd hH
  exact ⟨hl, hb, hrec, fun h1 => by simpa [h1] using hb⟩

/-- Witness for C1 at a concrete input: one worker, horizon 2,
`R = [[1,2]]`, `V = [[0,1,3]]`, `D = [[0,1]]`, `γ = 1/2`, `λ = 1/3`. -/
theorem compute_advantages_gae_recursion_witness :
    ((compute_advantages (1/2) (1/3) [[1, 2]] [[0, 1, 3]] [[0, 1]]).getD 0 []).length = 2 ∧
    ((compute_advantages (1/2) (1/3) [[1, 2]] [[0, 1, 3]] [[0, 1]]).getD 0 []).getD (2 - 1) 0
      = deltaSpec (1/2) ([[1, 2]].getD 0 []) ([[0, 1, 3]].getD 0 []) ([[0, 1]].getD 0 []) (2 - 1) ∧
    (∀ t, t + 1 < 2 →
      ((compute_advantages (1/2) (1/3) [[1, 2]] [[0, 1, 3]] [[0, 1]]).getD 0 []).getD t 0
        = deltaSpec (1/2) ([[1, 2]].getD 0 []) ([[0, 1, 3]].getD 0 []) ([[0, 1]].getD 0 []) t
          + (1/2) * (1/3) * (1 - ([[0, 1]].getD 0 []).getD t 0)
            * ((compute_advantages (1/2) (1/3) [[1, 2]] [[0, 1, 3]] [[0, 1]]).getD 0 []).getD (t + 1) 0) ∧
    (2 = 1 →
      ((compute_advantages (1/2) (1/3) [[1, 2]] [[0, 1, 3]] [[0, 1]]).getD 0 []).getD 0 0
        = deltaSpec (1/2) ([[1, 2]].getD 0 []) ([[0, 1, 3]].getD 0 []) ([[0, 1]].getD 0 []) 0) :=
  compute_advantages_gae_recursion (1/2) (1/3) [[1, 2]] [[0, 1, 3]] [[0, 1]] 1 2 0
    (by decide) (by decide) (by decide) (by decide) (by decide) (by decide) (by decide)
    (by decide)

/-- Python `range(0, stop, step)` for a positive `step`: the multiples of
`step` below `stop`, of which there are `⌈stop/step⌉`.  Python raises on
`step = 0`; the model returns `[]` there and every theorem about it keeps
`step` positive. -/
def pyRangeStep (stop step : ℕ) : List ℕ :=
  if step = 0 then [] else (List.range ((stop + step - 1) / step)).map (fun k => k * step)

/-- `compute_minibatch_ids` (src/agents.py lines 60-84) without the assert:
`step = horizon // num_minibatch`; each worker starts from
`ids[i] = list(range(horizon))`, shuffled in place when `use_rnn` is false,
then sliced as `[ids[i][j:j+step] for j in range(0, horizon, step)]`; the
return transposes, group `g` collecting `ids[j][g]` from every worker `j`.
The ambient-random `shuffle` is modelled by a per-worker permutation function
`shuffleFn`, constrained by a `List.Perm` hypothesis where a property needs
it. -/
def compute_minibatch_ids (horizon num_workers num_minibatch : ℕ)
    (use_rnn : Bool) (shuffleFn : ℕ → List ℕ → List ℕ) : List (List (List ℕ)) :=
  let step := horizon / num_minibatch
  let ids := (List.range num_workers).map (fun i =>
    let row := if use_rnn then List.range horizon else shuffleFn i (List.range horizon)
    (pyRangeStep horizon step).map (fun j => (row.drop j).take step))
  (List.range num_minibatch).map (fun g => ids.map (fun chunksRow => chunksRow.getD g []))

/-- `compute_minibatch_ids` including the precondition assert on line 78,
`assert self.driver._num_steps % step == 0`.  `driver_num_steps` stands for
`self.driver._num_steps`, the step count the driver is configured with
(`horizon` in this repository's usage); `none` models the `AssertionError`
aborting the call before any index group is produced. -/
def compute_minibatch_ids_checked (horizon num_workers num_minibatch : ℕ)
    (use_rnn : Bool) (shuffleFn : ℕ → List ℕ → List ℕ) (driver_num_steps : ℕ) :
    Option (List (List (List ℕ))) :=
  let step := horizon / num_minibatch
  if driver_num_steps % step = 0 then
    some (compute_minibatch_ids horizon num_workers num_minibatch use_rnn shuffleFn)
  else none

theorem range_map_getD {α : Type} (d : α) (L : List α) :
    (List.range L.length).map (fun g => L.getD g d) = L := by
  induction L with
  | nil => simp
  | cons a t ih =>
    rw [List.length_cons, List.range_succ_eq_map, List.map_cons, List.map_map]
    simp only [Function.comp_def, List.getD_cons_succ, List.getD_cons_zero]
    rw [ih]

theorem range'_drop : ∀ (m s n : ℕ), (List.range' s n).drop m = List.range' (s + m) (n - m) := by
  intro m
  induction m with
  | zero => intro s n; simp
  | succ m ih =>
    intro s n
    cases n with
    | zero => simp
    | succ n =>
      rw [List.range'_succ s n 1, List.drop_succ_cons, ih (s + 1) n]
      congr 1 <;> omega

theorem range'_take : ∀ (m s n : ℕ), m ≤ n → (List.range' s n).take m = List.range' s m := by
  intro m
  induction m with
  | zero => intro s n _; simp
  | succ m ih =>
    intro s n hm
    cases n with
    | zero => omega
    | succ n =>
      rw [List.range'_succ s n 1, List.take_succ_cons, ih (s + 1) n (by omega),
        List.range'_succ s m 1]

theorem flatten_chunks (step : ℕ) :
    ∀ (M : ℕ) (row : List ℕ), row.length = M * step →
      ((List.range M).map (fun g => (row.drop (g * step)).take step)).flatten = row := by
  intro M
  induction M with
  | zero => intro row h; simp at h; simp [h]
  | succ M ih =>
    intro row h
    rw [List.range_succ_eq_map, List.map_cons, List.map_map, List.flatten_cons]
    have hshift : ∀ g : ℕ,
        ((fun g => (row.drop (g * step)).take step) ∘ Nat.succ) g
          = (fun g => ((row.drop step).drop (g * step)).take step) g := by
      intro g
      simp only [Function.comp_def]
      congr 1
      rw [List.drop_drop]
      congr 1
      rw [Nat.succ_mul]
      omega
    rw [List.map_congr_left (fun g _ => hshift g),
      ih (row.drop step) (by rw [List.length_drop, h, Nat.succ_mul]; omega)]
    simp [List.take_append_drop]

theorem pyRangeStep_of_mul (M step : ℕ) (h : 0 < step) :
    pyRangeStep (M * step) step = (List.range M).map (fun k => k * step) := by
  rw [pyRangeStep, if_neg (by omega)]
  congr 2
  rw [Nat.add_sub_assoc (by omega) (M * step), mul_comm M step, Nat.mul_add_div h]
  simp [Nat.div_eq_of_lt (by omega : step - 1 < step)]

theorem getD_map_range {α : Type} (d : α) (F : ℕ → α) {n i : ℕ} (h : i < n) :
    ((List.range n).map F).getD i d = F i := by
  rw [List.getD_eq_getElem _ _ (by simpa using h)]
  simp

theorem mb_group (H W M : ℕ) (b : Bool) (f : ℕ → List ℕ → List ℕ) (g w : ℕ)
    (hg : g < M) (hw : w < W) :
    ((compute_minibatch_ids H W M b f).getD g []).getD w []
      = ((pyRangeStep H (H / M)).map
          (fun j => ((if b then List.range H else f w (List.range H)).drop j).take (H / M))).getD g [] := by
  simp only [compute_minibatch_ids]
  rw [getD_map_range _ _ hg, List.map_map, getD_map_range _ _ hw]
  simp only [Function.comp_def]

theorem mb_chunk_eval (H M : ℕ) (row : List ℕ) (g : ℕ) (hg : g < M)
    (hH : 0 < H) (hdvd : M ∣ H) :
    ((pyRangeStep H (H / M)).map (fun j => (row.drop j).take (H / M))).getD g []
      = (row.drop (g * (H / M))).take (H / M) := by
  have hM : 0 < M := by
    rcases Nat.eq_zero_or_pos M with h0 | h
    · subst h0; rw [Nat.zero_dvd] at hdvd; omega
    · exact h
  have hstep : 0 < H / M := Nat.div_pos (Nat.le_of_dvd hH hdvd) hM
  have hHM : H = M * (H / M) := by
    rw [mul_comm, Nat.div_mul_cancel hdvd]
  rw [show pyRangeStep H (H / M) = pyRangeStep (M * (H / M)) (H / M) from by rw [← hHM],
    pyRangeStep_of_mul M (H / M) hstep, List.map_map]
  rw [getD_map_range _ _ hg]
  simp only [Function.comp_def]

theorem chunk_bound (H M g : ℕ) (hg : g < M) (hdvd : M ∣ H) :
    g * (H / M) + (H / M) ≤ H := by
  have hHM : M * (H / M) = H := by
    rw [mul_comm, Nat.div_mul_cancel hdvd]
  have h1 : (g + 1) * (H / M) ≤ M * (H / M) := Nat.mul_le_mul_right _ (by omega)
  rw [Nat.succ_mul] at h1
  omega

theorem mb_group_rnn (H W M : ℕ) (f : ℕ → List ℕ → List ℕ) (g w : ℕ)
    (hg : g < M) (hw : w < W) (hH : 0 < H) (hdvd : M ∣ H) :
    ((compute_minibatch_ids H W M true f).getD g []).getD w []
      = List.range' (g * (H / M)) (H / M) := by
  have hbound : g * (H / M) + (H / M) ≤ H := chunk_bound H M g hg hdvd
  rw [mb_group H W M true f g w hg hw, mb_chunk_eval H M _ g hg hH hdvd]
  simp only [if_pos]
  rw [List.range_eq_range', range'_drop, range'_take _ _ _ (by omega)]
  simp

theorem mb_column (H W M : ℕ) (b : Bool) (f : ℕ → List ℕ → List ℕ) (w : ℕ)
    (hw : w < W) :
    (compute_minibatch_ids H W M b f).map (fun grp => grp.getD w [])
      = (List.range M).map (fun g =>
          ((pyRangeStep H (H / M)).map
            (fun j => ((if b then List.range H else f w (List.range H)).drop j).take (H / M))).getD g []) := by
  simp only [compute_minibatch_ids, List.map_map]
  apply List.map_congr_left
  intro g _
  simp only [Function.comp_def]
  exact getD_map_range _ _ hw

/-- C3 counterexample: `num_minibatch = 4` does not divide `horizon = 10`, yet
the assert `horizon % (horizon // num_minibatch) == 0` is `10 % 2 == 0` and
passes, so the call does not fail. -/
theorem compute_minibatch_ids_assert_cex :
    ¬ (4 ∣ 10) ∧
    (compute_minibatch_ids_checked 10 1 4 true (fun _ l => l) 10).isSome = true := by
  decide

/-- C3 (amended): with the driver configured for `horizon` steps, the call
fails with an assertion error iff `step = horizon // num_minibatch` does not
evenly divide `horizon`; in particular whenever `num_minibatch` divides
`horizon` no assertion is raised, but `num_minibatch` values that do not
divide `horizon` can also pass (the assert checks divisibility by `step`,
not by `num_minibatch`). -/
theorem compute_minibatch_ids_assert_iff (H W M : ℕ) (b : Bool)
    (f : ℕ → List ℕ → List ℕ) (_hM : 0 < M) (_hMH : M ≤ H) :
    ((compute_minibatch_ids_checked H W M b f H).isSome = true ↔ (H / M) ∣ H) ∧
    (M ∣ H → (compute_minibatch_ids_checked H W M b f H).isSome = true) := by
  have hiff : (compute_minibatch_ids_checked H W M b f H).isSome = true ↔ (H / M) ∣ H := by
    by_cases hmod : H % (H / M) = 0
    · simp only [compute_minibatch_ids_checked, if_pos hmod, Option.isSome_some]
      simp [Nat.dvd_of_mod_eq_zero hmod]
    · simp only [compute_minibatch_ids_checked, if_neg hmod, Option.isSome_none]
      simp only [Bool.false_eq_true, false_iff]
      intro hd
      exact hmod (Nat.dvd_iff_mod_eq_zero.mp hd)
  exact ⟨hiff, fun hdvd => hiff.mpr (Nat.div_dvd_of_dvd hdvd)⟩

/-- C4 counterexample: with `use_rnn = false`, `horizon = 2`,
`num_minibatch = 2` and a shuffle outcome that reverses the index list (a
legitimate permutation), minibatch group 0 of worker 0 is `[1]`, which does
not contain index 0, so it is not the contiguous chunk `{0}` the claim
requires in both modes. -/
theorem compute_minibatch_ids_chunk_cex :
    ((List.range 2).reverse).Perm (List.range 2) ∧
    ((compute_minibatch_ids 2 1 2 false (fun _ l => l.reverse)).getD 0 []).getD 0 [] = [1] ∧
    0 ∉ ((compute_minibatch_ids 2 1 2 false (fun _ l => l.reverse)).getD 0 []).getD 0 [] := by
  decide

/-- C4 (amended): with `use_rnn = true`, minibatch group `g` is exactly the
contiguous chunk `{g·(H/M), …, (g+1)·(H/M)−1}` for every worker, in temporal
order; with `use_rnn = false` the whole per-worker index list is shuffled
before chunking, so group `g` is chunk `g` of the shuffled permutation — it
still has exactly `H/M` indices per worker, but need not equal the contiguous
chunk. -/
theorem compute_minibatch_ids_chunk_groups (H W M : ℕ) (f : ℕ → List ℕ → List ℕ)
    (g w : ℕ) (hg : g < M) (hw : w < W) (hH : 0 < H) (hdvd : M ∣ H) :
    ((compute_minibatch_ids H W M true f).getD g []).getD w []
        = List.range' (g * (H / M)) (H / M) ∧
    ((compute_minibatch_ids H W M false f).getD g []).getD w []
        = ((f w (List.range H)).drop (g * (H / M))).take (H / M) ∧
    ((f w (List.range H)).Perm (List.range H) →
      (((compute_minibatch_ids H W M false f).getD g []).getD w []).length = H / M) := by
  have h2 : ((compute_minibatch_ids H W M false f).getD g []).getD w []
      = ((f w (List.range H)).drop (g * (H / M))).take (H / M) := by
    rw [mb_group H W M false f g w hg hw, mb_chunk_eval H M _ g hg hH hdvd]
    simp
  refine ⟨mb_group_rnn H W M f g w hg hw hH hdvd, h2, fun hperm => ?_⟩
  rw [h2, List.length_take, List.length_drop, hperm.length_eq, List.length_range]
  have := chunk_bound H M g hg hdvd
  omega

/-- Witness for the amended C4 at `H = 4`, `M = 2`, one worker, a reversing
shuffle. -/
theorem compute_minibatch_ids_chunk_groups_witness :
    ((compute_minibatch_ids 4 1 2 true (fun _ l => l.reverse)).getD 1 []).getD 0 []
        = List.range' (1 * (4 / 2)) (4 / 2) ∧
    ((compute_minibatch_ids 4 1 2 false (fun _ l => l.reverse)).getD 1 []).getD 0 []
        = (((fun (_ : ℕ) (l : List ℕ) => l.reverse) 0 (List.range 4)).drop (1 * (4 / 2))).take (4 / 2) ∧
    ((((fun (_ : ℕ) (l : List ℕ) => l.reverse) 0 (List.range 4))).Perm (List.range 4) →
      (((compute_minibatch_ids 4 1 2 false (fun _ l => l.reverse)).getD 1 []).getD 0 []).length = 4 / 2) :=
  compute_minibatch_ids_chunk_groups 4 1 2 (fun _ l => l.reverse) 1 0
    (by decide) (by decide) (by decide) (by decide)

/-- C5: for every horizon `H`, `num_minibatch = M` dividing `H`, and worker
`w`, the concatenation over all `M` minibatch groups of worker `w`'s index
lists is a permutation of `[0, H)` — full coverage, no duplicates, no
omissions — in both `use_rnn` modes (the shuffle hypothesis states that the
modelled shuffle outcome is a permutation of the index list). -/
theorem compute_minibatch_ids_cover (H W M : ℕ) (b : Bool)
    (f : ℕ → List ℕ → List ℕ) (w : ℕ) (hw : w < W) (hH : 0 < H) (hdvd : M ∣ H)
    (hperm : (f w (List.range H)).Perm (List.range H)) :
    (((compute_minibatch_ids H W M b f).map (fun grp => grp.getD w [])).flatten).Perm
      (List.range H) := by
  have hM : 0 < M := by
    rcases Nat.eq_zero_or_pos M with h0 | h
    · subst h0; rw [Nat.zero_dvd] at hdvd; omega
    · exact h
  have hstep : 0 < H / M := Nat.div_pos (Nat.le_of_dvd hH hdvd) hM
  have hHM : H = M * (H / M) := by
    rw [mul_comm, Nat.div_mul_cancel hdvd]
  rw [mb_column H W M b f w hw]
  set row := if b then List.range H else f w (List.range H) with hrow
  set CL := (pyRangeStep H (H / M)).map (fun j => (row.drop j).take (H / M)) with hCLdef
  have hrowlen : row.length = H := by
    cases b
    · simp [hrow, hperm.length_eq]
    · simp [hrow]
  have hCL : CL = (List.range M).map (fun g => (row.drop (g * (H / M))).take (H / M)) := by
    rw [hCLdef, show pyRangeStep H (H / M) = pyRangeStep (M * (H / M)) (H / M) from by
      rw [← hHM], pyRangeStep_of_mul M _ hstep, List.map_map]
    simp only [Function.comp_def]
  have hCLlen : CL.length = M := by rw [hCL]; simp
  have hmapeq : (List.range M).map (fun g => CL.getD g []) = CL := by
    rw [show M = CL.length from hCLlen.symm]
    exact range_map_getD [] CL
  rw [hmapeq, hCL, flatten_chunks (H / M) M row (by rw [hrowlen]; exact hHM)]
  cases b
  · rw [hrow]
    simpa using hperm
  · rw [hrow]
    simp

/-- Witness for C5 at `H = 4`, `M = 2`, two workers, `use_rnn = false`, a
reversing shuffle, worker 1. -/
theorem compute_minibatch_ids_cover_witness :
    (((compute_minibatch_ids 4 2 2 false (fun _ l => l.reverse)).map
        (fun grp => grp.getD 1 [])).flatten).Perm (List.range 4) :=
  compute_minibatch_ids_cover 4 2 2 false (fun _ l => l.reverse) 1
    (by decide) (by decide) (by decide) (by decide)

/-- C6: with `use_rnn = true`, every minibatch group's per-worker index list
is strictly increasing (temporal order preserved within a chunk). -/
theorem compute_minibatch_ids_sorted (H W M : ℕ) (f : ℕ → List ℕ → List ℕ)
    (g w : ℕ) (hg : g < M) (hw : w < W) (hH : 0 < H) (hdvd : M ∣ H) :
    List.Sorted (· < ·) (((compute_minibatch_ids H W M true f).getD g []).getD w []) := by
  rw [mb_group_rnn H W M f g w hg hw hH hdvd]
  exact List.pairwise_lt_range' _ _

/-- Witness for C6 at `H = 6`, `M = 3`, two workers, group 2, worker 1. -/
theorem compute_minibatch_ids_sorted_witness :
    List.Sorted (· < ·)
      (((compute_minibatch_ids 6 2 3 true (fun _ l => l)).getD 2 []).getD 1 []) :=
  compute_minibatch_ids_sorted 6 2 3 (fun _ l => l) 2 1
    (by decide) (by decide) (by decide) (by decide)

/-- C10: at `horizon = 10`, `num_minibatch = 4` (so `step = 2`), the assert
passes even though 4 does not divide 10, and the 4 returned groups cover only
the 8 indices `0..7` for the worker, omitting indices 8 and 9 from every
group. -/
theorem compute_minibatch_ids_silent_omission :
    ¬ (4 ∣ 10) ∧
    (compute_minibatch_ids_checked 10 1 4 true (fun _ l => l) 10).isSome = true ∧
    (compute_minibatch_ids 10 1 4 true (fun _ l => l)).length = 4 ∧
    ((compute_minibatch_ids 10 1 4 true (fun _ l => l)).map
        (fun grp => grp.getD 0 [])).flatten = [0, 1, 2, 3, 4, 5, 6, 7] ∧
    (∀ grp ∈ compute_minibatch_ids 10 1 4 true (fun _ l => l),
      8 ∉ grp.getD 0 [] ∧ 9 ∉ grp.getD 0 []) := by
  decide

/-- Witness for the amended C3 at `horizon = 12`, `num_minibatch = 4`. -/
theorem compute_minibatch_ids_assert_iff_witness :
    ((compute_minibatch_ids_checked 12 2 4 false (fun _ l => l) 12).isSome = true ↔ (12 / 4) ∣ 12) ∧
    (4 ∣ 12 → (compute_minibatch_ids_checked 12 2 4 false (fun _ l => l) 12).isSome = true) :=
  compute_minibatch_ids_assert_iff 12 2 4 false (fun _ l => l) (by decide) (by decide)

/-- The tf_agents `StepType.LAST` marker. -/
def STEP_TYPE_LAST : ℕ := 2

/-- One record of `self.memory`, the rollout buffer filled by the driver's
observer callback, viewed for a single worker: a batched time step's
`step_type`, `observation`, `reward` and `action` plus the policy info pair
(log-probability and value estimate) that `collect_experiences` reads. -/
structure TrajStep (Obs Act : Type) where
  stepType : ℕ
  observation : Obs
  reward : ℚ
  action : Act
  logprob : ℚ
  value : ℚ
  deriving DecidableEq, Inhabited

/-- The per-worker experience tensors assembled by `collect_experiences`. -/
structure Experiences (Obs Act : Type) where
  observations : List Obs
  rewards : List ℚ
  dones : List Bool
  actions : List Act
  probs : List ℚ
  values : List ℚ

/-- The experience-dictionary construction of `collect_experiences`
(src/agents.py lines 159-175), viewed for one worker (`tf.stack` along
`axis=1` makes each worker row exactly the time sequence modelled here).
Running the driver and the bootstrap network call are external collaborators:
`memory` is the buffer the driver filled, `lastStepType` is the bootstrap
step's `step_type` (whose LAST test is `last_done`), and `lastValue` is the
bootstrap value.  `dones` is built from `self.memory[1:]` with the bootstrap
done appended; `values` gets the bootstrap value appended. -/
def extract_experiences {Obs Act : Type} (memory : List (TrajStep Obs Act))
    (lastStepType : ℕ) (lastValue : ℚ) : Experiences Obs Act where
  observations := memory.map (fun s => s.observation)
  rewards := memory.map (fun s => s.reward)
  dones := (memory.drop 1).map (fun s => s.stepType == STEP_TYPE_LAST)
    ++ [lastStepType == STEP_TYPE_LAST]
  actions := memory.map (fun s => s.action)
  probs := memory.map (fun s => s.logprob)
  values := memory.map (fun s => s.value) ++ [lastValue]

theorem getD_append_length {α : Type} (A : List α) (b : α) (d : α) :
    (A ++ [b]).getD A.length d = b := by
  induction A with
  | nil => rfl
  | cons a t ih => simp [ih]

/-- C2: for a buffer of exactly `horizon` steps, the extracted dones tensor
has one entry per step; entry `t` with `t + 1 < horizon` is the done flag
recorded with buffer entry `t+1` (one step ahead); entry `horizon - 1` is the
terminal done flag computed from the bootstrap step; and the buffer's
first-step done flag is dropped — replacing buffer entry 0 leaves the dones
tensor unchanged. -/
theorem extract_experiences_dones {Obs Act : Type} [Inhabited Obs] [Inhabited Act]
    (memory : List (TrajStep Obs Act)) (lastStepType : ℕ) (lastValue : ℚ) (H : ℕ)
    (hlen : memory.length = H) (hH : 1 ≤ H) :
    (extract_experiences memory lastStepType lastValue).dones.length = H ∧
    (∀ t, t + 1 < H →
      (extract_experiences memory lastStepType lastValue).dones.getD t false
        = ((memory.getD (t + 1) default).stepType == STEP_TYPE_LAST)) ∧
    ((extract_experiences memory lastStepType lastValue).dones.getD (H - 1) false
      = (lastStepType == STEP_TYPE_LAST)) ∧
    ∀ s : TrajStep Obs Act,
      (extract_experiences (s :: memory.drop 1) lastStepType lastValue).dones
        = (extract_experiences memory lastStepType lastValue).dones := by
  have hA : ((memory.drop 1).map
      (fun s : TrajStep Obs Act => s.stepType == STEP_TYPE_LAST)).length = H - 1 := by
    simp [hlen]
  refine ⟨?_, ?_, ?_, ?_⟩
  · simp [extract_experiences, hlen]
    omega
  · intro t ht
    have ht' : t < ((memory.drop 1).map
        (fun s : TrajStep Obs Act => s.stepType == STEP_TYPE_LAST)).length := by omega
    rw [extract_experiences]
    rw [List.getD_append _ _ _ _ ht']
    rw [List.getD_eq_getElem _ _ ht', List.getD_eq_getElem _ _ (by omega)]
    simp [List.getElem_drop, Nat.add_comm 1 t]
  · rw [extract_experiences]
    have h1 : H - 1 = ((memory.drop 1).map
        (fun s : TrajStep Obs Act => s.stepType == STEP_TYPE_LAST)).length := by omega
    rw [h1, getD_append_length]
  · intro s
    rfl

/-- Witness for C2: a two-step buffer whose second entry is a LAST step,
with a non-LAST bootstrap step. -/
theorem extract_experiences_dones_witness :
    (extract_experiences [⟨0, 5, 1, 2, -1, 3⟩, ⟨2, 6, 0, 1, -2, 4⟩]
        1 7 : Experiences ℕ ℕ).dones.length = 2 ∧
    (∀ t, t + 1 < 2 →
      (extract_experiences [⟨0, 5, 1, 2, -1, 3⟩, ⟨2, 6, 0, 1, -2, 4⟩]
          1 7 : Experiences ℕ ℕ).dones.getD t false
        = ((([⟨0, 5, 1, 2, -1, 3⟩, ⟨2, 6, 0, 1, -2, 4⟩] :
              List (TrajStep ℕ ℕ)).getD (t + 1) default).stepType == STEP_TYPE_LAST)) ∧
    ((extract_experiences [⟨0, 5, 1, 2, -1, 3⟩, ⟨2, 6, 0, 1, -2, 4⟩]
        1 7 : Experiences ℕ ℕ).dones.getD (2 - 1) false
      = (1 == STEP_TYPE_LAST)) ∧
    ∀ s : TrajStep ℕ ℕ,
      (extract_experiences (s :: ([⟨0, 5, 1, 2, -1, 3⟩, ⟨2, 6, 0, 1, -2, 4⟩] :
          List (TrajStep ℕ ℕ)).drop 1) 1 7).dones
        = (extract_experiences [⟨0, 5, 1, 2, -1, 3⟩, ⟨2, 6, 0, 1, -2, 4⟩] 1 7).dones :=
  extract_experiences_dones [⟨0, 5, 1, 2, -1, 3⟩, ⟨2, 6, 0, 1, -2, 4⟩] 1 7 2
    (by decide) (by decide)

/-- Overall mean, `tf.reduce_mean(·, axis=None)`, on a flattened tensor. -/
noncomputable def mean (l : List ℝ) : ℝ := l.sum / l.length

/-- `tf.clip_by_value(x, lo, hi)`: clamp `x` into `[lo, hi]`. -/
noncomputable def clip_by_value (x lo hi : ℝ) : ℝ := min (max x lo) hi

/-- `ppo_clip_loss` (src/agents.py lines 86-109):
`prob_ratio = tf.exp(logprobs - old_logprobs)`, then elementwise
`max(-advantages * prob_ratio, -advantages * clip(prob_ratio, 1-ε, 1+ε))`,
reduced with the overall mean.  Same-shape tensors are flattened to lists and
the elementwise tensor operations become `zipWith`. -/
noncomputable def ppo_clip_loss (advantages old_logprobs logprobs : List ℝ)
    (clip_range : ℝ) : ℝ :=
  let prob_ratios := List.zipWith (fun lp olp => Real.exp (lp - olp)) logprobs old_logprobs
  let losses := List.zipWith
    (fun a r => max (-a * r) (-a * clip_by_value r (1 - clip_range) (1 + clip_range)))
    advantages prob_ratios
  mean losses

theorem sum_zipWith_range (f : ℝ → ℝ → ℝ) :
    ∀ (n : ℕ) (a b : List ℝ), a.length = n → b.length = n →
      (List.zipWith f a b).sum = ∑ i in Finset.range n, f (a.getD i 0) (b.getD i 0) := by
  intro n
  induction n with
  | zero =>
    intro a b ha hb
    rw [List.length_eq_zero] at ha hb
    subst ha; subst hb
    simp
  | succ n ih =>
    intro a b ha hb
    cases a with
    | nil => simp at ha
    | cons x a =>
      cases b with
      | nil => simp at hb
      | cons y b =>
        rw [List.zipWith_cons_cons, List.sum_cons,
          ih a b (by simpa using ha) (by simpa using hb),
          Finset.sum_range_succ' _ n]
        simp only [List.getD_cons_succ, List.getD_cons_zero]
        ring

theorem sum_list_range (a : List ℝ) :
    a.sum = ∑ i in Finset.range a.length, a.getD i 0 := by
  induction a with
  | nil => simp
  | cons x a ih =>
    rw [List.sum_cons, List.length_cons, Finset.sum_range_succ' _ a.length]
    simp only [List.getD_cons_succ, List.getD_cons_zero]
    rw [← ih]
    ring

theorem sum_map_neg_eq (l : List ℝ) : (l.map (fun a => -a)).sum = -l.sum := by
  induction l with
  | nil => simp
  | cons a t ih =>
    simp [ih]
    ring

theorem ppo_losses_at_ratio_one (ε : ℝ) (hε : 0 ≤ ε) :
    ∀ (A o : List ℝ), A.length = o.length →
      List.zipWith
          (fun a r => max (-a * r) (-a * clip_by_value r (1 - ε) (1 + ε)))
          A (List.zipWith (fun lp olp => Real.exp (lp - olp)) o o)
        = A.map (fun a => -a) := by
  intro A
  induction A with
  | nil => intro o h; simp
  | cons a A ih =>
    intro o h
    cases o with
    | nil => simp at h
    | cons x o =>
      simp only [List.zipWith_cons_cons, List.map_cons]
      rw [ih o (by simpa using h)]
      congr 1
      have hclip : clip_by_value 1 (1 - ε) (1 + ε) = 1 := by
        rw [clip_by_value, max_eq_left (by linarith), min_eq_left (by linarith)]
      rw [sub_self, Real.exp_zero, hclip]
      simp

/-- C7: `ppo_clip_loss` equals the mean over all elements of
`max(−A·r, −A·clip(r, 1−ε, 1+ε))` with `r = exp(new − old)`; and at the
boundary where new log-probabilities equal old log-probabilities (ratio
exactly 1), advantages all positive and `ε ≥ 0`, it equals
`−mean(advantages)`. -/
theorem ppo_clip_loss_spec (advantages old_logprobs logprobs : List ℝ)
    (clip_range : ℝ) (n : ℕ) (ha : advantages.length = n)
    (ho : old_logprobs.length = n) (hl : logprobs.length = n) :
    ppo_clip_loss advantages old_logprobs logprobs clip_range
      = (∑ i in Finset.range n,
          max (-(advantages.getD i 0)
                * Real.exp (logprobs.getD i 0 - old_logprobs.getD i 0))
              (-(advantages.getD i 0)
                * clip_by_value (Real.exp (logprobs.getD i 0 - old_logprobs.getD i 0))
                    (1 - clip_range) (1 + clip_range))) / n ∧
    (logprobs = old_logprobs → (∀ a ∈ advantages, 0 < a) → 0 ≤ clip_range →
      ppo_clip_loss advantages old_logprobs logprobs clip_range
        = -(mean advantages)) := by
  have hr : (List.zipWith (fun lp olp => Real.exp (lp - olp))
      logprobs old_logprobs).length = n := by
    simp [hl, ho]
  constructor
  · simp only [ppo_clip_loss]
    rw [mean, sum_zipWith_range _ n advantages _ ha hr]
    have hlosses : (List.zipWith
        (fun a r => max (-a * r) (-a * clip_by_value r (1 - clip_range) (1 + clip_range)))
        advantages (List.zipWith (fun lp olp => Real.exp (lp - olp))
          logprobs old_logprobs)).length = (n : ℕ) := by
      simp [ha, hl, ho]
    rw [hlosses]
    congr 1
    apply Finset.sum_congr rfl
    intro i hi
    have hi' : i < n := Finset.mem_range.mp hi
    have hgr : (List.zipWith (fun lp olp => Real.exp (lp - olp))
        logprobs old_logprobs).getD i 0
        = Real.exp (logprobs.getD i 0 - old_logprobs.getD i 0) := by
      rw [List.getD_eq_getElem _ _ (by omega), List.getElem_zipWith,
        List.getD_eq_getElem logprobs _ (by omega),
        List.getD_eq_getElem old_logprobs _ (by omega)]
    rw [hgr]
  · intro heq _hpos hce
    subst heq
    simp only [ppo_clip_loss]
    rw [ppo_losses_at_ratio_one clip_range hce advantages logprobs (by omega), mean, mean]
    rw [List.length_map, sum_map_neg_eq, neg_div]

/-- Witness for C7 at `A = [2]`, `old = new = [0]`, `ε = 1/2`. -/
theorem ppo_clip_loss_spec_witness :
    (ppo_clip_loss [2] [0] [0] (1/2)
      = (∑ i in Finset.range 1,
          max (-(([2] : List ℝ).getD i 0)
                * Real.exp (([0] : List ℝ).getD i 0 - ([0] : List ℝ).getD i 0))
              (-(([2] : List ℝ).getD i 0)
                * clip_by_value
                    (Real.exp (([0] : List ℝ).getD i 0 - ([0] : List ℝ).getD i 0))
                    (1 - 1/2) (1 + 1/2))) / (1 : ℕ)) ∧
    (([0] : List ℝ) = [0] → (∀ a ∈ ([2] : List ℝ), 0 < a) → (0 : ℝ) ≤ 1/2 →
      ppo_clip_loss [2] [0] [0] (1/2) = -(mean [2])) :=
  ppo_clip_loss_spec [2] [0] [0] (1/2) 1 rfl rfl rfl

/-- Python/TensorFlow slice `x[j:]` with an integer start index: a
nonnegative start drops that many leading elements; a negative start counts
from the end (`x[-k:]` is the last `k` elements), clamped to the sequence
length. -/
def pySliceFrom {α : Type} (l : List α) (j : ℤ) : List α :=
  if 0 ≤ j then l.drop j.toNat else l.drop (l.length - (-j).toNat)

/-- The policy/network surface `recompute_cell_states` uses:
`self.policy.get_initial_state(batch_size)` and the actor-critic network
called as `network(inputs, dones, cell_states, action, training)`, returning
the 5-tuple (sampled action, log-prob, value, entropy, new cell states) of
which only the last component is consumed here.  The network is an external
collaborator, so it is kept abstract. -/
structure PolicyModel (Obs Act St : Type) where
  get_initial_state : ℕ → St
  network : List Obs → List ℚ → St → Option (List Act) → Bool →
    (List Act × List ℚ × List ℚ × List ℚ × St)

/-- The per-worker loop of `recompute_cell_states` (src/agents.py lines
202-217), producing the list of per-worker recomputed cell states (lines
219-227 then stack this list back into a batched policy state, preserving
worker order).  `steps` is the per-worker steps-since-reset counter read from
the policy state (`last_policy_state[1]` with shared parameters,
`last_policy_state[0][1]` otherwise); `observations`, `dones`, `actions` are
the collected `[workers, horizon]` tensors as lists of worker rows.  The
slice `observations[i, j:]` with `j = horizon - steps[i]` — an `Int`, since
`steps[i]` may exceed `horizon` — is `pySliceFrom`. -/
def recompute_cell_states {Obs Act St : Type} (P : PolicyModel Obs Act St)
    (horizon num_workers : ℕ) (observations : List (List Obs))
    (dones : List (List ℚ)) (actions : List (List Act)) (steps : List ℕ) :
    List St :=
  (List.range num_workers).map (fun i =>
    if steps.getD i 0 = 0 then P.get_initial_state 1
    else
      let j : ℤ := (horizon : ℤ) - (steps.getD i 0 : ℤ)
      let worker_obs := pySliceFrom (observations.getD i []) j
      let worker_dones := pySliceFrom (dones.getD i []) j
      let worker_acts := pySliceFrom (actions.getD i []) j
      (P.network worker_obs worker_dones (P.get_initial_state 1)
        (some worker_acts) true).2.2.2.2)

/-- C8: a worker whose steps-since-reset counter is zero is assigned the
network's fresh initial state `get_initial_state(1)`, not a state obtained
by replaying any part of the trajectory. -/
theorem recompute_cell_states_fresh_on_reset {Obs Act St : Type} [Inhabited St]
    (P : PolicyModel Obs Act St) (horizon num_workers : ℕ)
    (observations : List (List Obs)) (dones : List (List ℚ))
    (actions : List (List Act)) (steps : List ℕ) (i : ℕ)
    (hi : i < num_workers) (hz : steps.getD i 0 = 0) :
    (recompute_cell_states P horizon num_workers observations dones actions
        steps).getD i default
      = P.get_initial_state 1 := by
  simp only [recompute_cell_states]
  rw [getD_map_range _ _ hi, if_pos hz]

/-- C9: a worker with nonzero steps-since-reset counter `s` (with
`s ≤ horizon`, so the requested suffix exists) is assigned the cell state
output by feeding exactly the last `s` timesteps of its just-collected
trajectory — observations, dones and actions from index `horizon − s` to the
end — through the network in training mode with a fresh initial state. -/
theorem recompute_cell_states_replay_suffix {Obs Act St : Type} [Inhabited St]
    (P : PolicyModel Obs Act St) (horizon num_workers : ℕ)
    (observations : List (List Obs)) (dones : List (List ℚ))
    (actions : List (List Act)) (steps : List ℕ) (i s : ℕ)
    (hi : i < num_workers) (hs : steps.getD i 0 = s) (hs0 : 0 < s)
    (hsh : s ≤ horizon)
    (hobs : (observations.getD i []).length = horizon)
    (hdon : (dones.getD i []).length = horizon)
    (hact : (actions.getD i []).length = horizon) :
    (recompute_cell_states P horizon num_workers observations dones actions
        steps).getD i default
      = (P.network ((observations.getD i []).drop (horizon - s))
          ((dones.getD i []).drop (horizon - s))
          (P.get_initial_state 1)
          (some ((actions.getD i []).drop (horizon - s))) true).2.2.2.2 ∧
    ((observations.getD i []).drop (horizon - s)).length = s ∧
    ((dones.getD i []).drop (horizon - s)).length = s ∧
    ((actions.getD i []).drop (horizon - s)).length = s := by
  have hj : (0 : ℤ) ≤ (horizon : ℤ) - (s : ℤ) := by omega
  have hjn : ((horizon : ℤ) - (s : ℤ)).toNat = horizon - s := by omega
  refine ⟨?_, ?_, ?_, ?_⟩
  · simp only [recompute_cell_states]
    rw [getD_map_range _ _ hi, hs, if_neg (by omega)]
    simp only [pySliceFrom, if_pos hj, hjn]
  · rw [List.length_drop, hobs]; omega
  · rw [List.length_drop, hdon]; omega
  · rw [List.length_drop, hact]; omega

/-- A concrete instantiation of the abstract network surface, for the C8 and
C9 witnesses: cell states are natural numbers, the fresh state for batch
size `b` is `100 + b`, and a network call returns the length of its
observation input plus its incoming cell state as the new cell state. -/
def sampleNet : PolicyModel ℕ ℕ ℕ where
  get_initial_state := fun b => 100 + b
  network := fun obs _dns st _act _tr => ([], [], [], [], obs.length + st)

/-- Witness for C8: two workers, worker 0 has counter 0. -/
theorem recompute_cell_states_fresh_on_reset_witness :
    (recompute_cell_states sampleNet 3 2 [[10, 20, 30], [11, 21, 31]]
        [[0, 0, 1], [0, 1, 0]] [[1, 2, 3], [4, 5, 6]] [0, 2]).getD 0 default
      = sampleNet.get_initial_state 1 :=
  recompute_cell_states_fresh_on_reset sampleNet 3 2
    [[10, 20, 30], [11, 21, 31]] [[0, 0, 1], [0, 1, 0]] [[1, 2, 3], [4, 5, 6]]
    [0, 2] 0 (by decide) (by decide)

/-- Witness for C9: two workers, worker 1 has counter 2 with horizon 3. -/
theorem recompute_cell_states_replay_suffix_witness :
    ((recompute_cell_states sampleNet 3 2 [[10, 20, 30], [11, 21, 31]]
        [[0, 0, 1], [0, 1, 0]] [[1, 2, 3], [4, 5, 6]] [0, 2]).getD 1 default
      = (sampleNet.network ((([[10, 20, 30], [11, 21, 31]] :
            List (List ℕ)).getD 1 []).drop (3 - 2))
          ((([[0, 0, 1], [0, 1, 0]] : List (List ℚ)).getD 1 []).drop (3 - 2))
          (sampleNet.get_initial_state 1)
          (some ((([[1, 2, 3], [4, 5, 6]] :
            List (List ℕ)).getD 1 []).drop (3 - 2))) true).2.2.2.2) ∧
    ((([[10, 20, 30], [11, 21, 31]] : List (List ℕ)).getD 1 []).drop (3 - 2)).length = 2 ∧
    ((([[0, 0, 1], [0, 1, 0]] : List (List ℚ)).getD 1 []).drop (3 - 2)).length = 2 ∧
    ((([[1, 2, 3], [4, 5, 6]] : List (List ℕ)).getD 1 []).drop (3 - 2)).length = 2 :=
  recompute_cell_states_replay_suffix sampleNet 3 2
    [[10, 20, 30], [11, 21, 31]] [[0, 0, 1], [0, 1, 0]] [[1, 2, 3], [4, 5, 6]]
    [0, 2] 1 2 (by decide) (by decide) (by decide) (by decide)
    (by decide) (by decide) (by decide)

end PPO
